import Mathlib

/-!
Verification development for the pulsar-topic-deduplicator core.

The TypeScript sources embedded here:
* src/src/deduplication.ts - createHasher and the keepDeduplicating loop;
* src/cacheBuilding.ts - getDigests and buildUpCache (the revision with the
  timeout classification and the bounded non-timeout retry with exponential
  backoff).

External dependencies of the repository (the oblivious-set cache, the OpenSSL
BLAKE2b binding, safe-stable-stringify and the JSON builtins) are not part of
the repository sources; they are modelled from the specification, and each such
definition carries a doc comment saying so.
-/

namespace PulsarDedup

/-- Byte sequences (Node.js Buffer contents) are modelled as lists of naturals. -/
abbrev Bytes := List Nat

/-- Pulsar message as consumed by the core: payload bytes, string properties
(an association list in insertion order, mirroring a JS object), event
timestamp and publish timestamp in milliseconds. -/
structure Msg where
  data : Bytes
  properties : List (String × String)
  eventTimestamp : Int
  publishTimestamp : Int
deriving DecidableEq

/-- Hexadecimal digit characters, lowercase, as produced by Buffer.toString with
the hex encoding. -/
def hexDigitChar (n : Nat) : Char :=
  if n < 10 then Char.ofNat (48 + n) else Char.ofNat (87 + n)

/-- Render one byte as two lowercase hex characters. -/
def hexOfByte (b : Nat) : String :=
  String.mk [hexDigitChar (b / 16 % 16), hexDigitChar (b % 16)]

/-- Model of Buffer.toString with the hex encoding applied to a byte sequence. -/
def hexOfBytes (bs : Bytes) : String :=
  String.join (bs.map hexOfByte)

/-- UTF-8 encoding of one Unicode code point. -/
def utf8EncodeCodepoint (n : Nat) : Bytes :=
  if n < 128 then [n]
  else if n < 2048 then [192 + n / 64, 128 + n % 64]
  else if n < 65536 then [224 + n / 4096, 128 + n / 64 % 64, 128 + n % 64]
  else [240 + n / 262144, 128 + n / 4096 % 64, 128 + n / 64 % 64, 128 + n % 64]

/-- Model of Buffer.from applied to a string with the utf8 encoding. -/
def utf8Bytes (s : String) : Bytes :=
  (s.toList.map (fun c => utf8EncodeCodepoint c.toNat)).flatten

/-- JSON escaping of one character inside a double-quoted JSON string, as
performed by JSON.stringify and safe-stable-stringify. -/
def jsonEscapeChar (c : Char) : String :=
  if c = '"' then "\\\""
  else if c = '\\' then "\\\\"
  else if c = '\x08' then "\\b"
  else if c = '\x09' then "\\t"
  else if c = '\x0a' then "\\n"
  else if c = '\x0c' then "\\f"
  else if c = '\x0d' then "\\r"
  else if c.toNat < 32 then "\\u00" ++ hexOfByte c.toNat
  else String.mk [c]

/-- Model of JSON.stringify on a string value. -/
def jsonEncodeString (s : String) : String :=
  "\"" ++ String.join (s.toList.map jsonEscapeChar) ++ "\""

/-- Model of JSON.stringify on an array of string values, such as the origin
marker JSON.stringify([digest]) at src/src/deduplication.ts line 115. -/
def jsonStringifyStrings (xs : List String) : String :=
  "[" ++ String.intercalate (",") (xs.map jsonEncodeString) ++ "]"

/-- Lexicographic comparison of character lists by code point; the total order
used to model the deterministic key ordering of safe-stable-stringify. -/
def charListLe : List Char → List Char → Bool
  | [], _ => true
  | _ :: _, [] => false
  | a :: as, b :: bs =>
      if a.toNat < b.toNat then true
      else if b.toNat < a.toNat then false
      else charListLe as bs

/-- Key order on property entries: compare the keys lexicographically. -/
def keyLe (a b : String × String) : Prop :=
  charListLe a.1.toList b.1.toList = true

instance : DecidableRel keyLe := fun a b => by
  unfold keyLe; infer_instance

/-- Deterministic key sort performed inside safe-stable-stringify. -/
def sortProps (l : List (String × String)) : List (String × String) :=
  List.insertionSort keyLe l

/-- Association-list lookup modelling JS property access on an object: the
first entry with the given key wins. -/
def lookupProp (k : String) : List (String × String) → Option String
  | [] => none
  | e :: rest => if e.1 = k then some e.2 else lookupProp k rest

/-- Embedding of the property filter inside createHasher,
src/src/deduplication.ts lines 15-17: keep the entries whose key is not in the
ignored set. -/
def keptEntries (ignoredProperties : List String) (props : List (String × String)) :
    List (String × String) :=
  props.filter (fun e => decide (e.1 ∉ ignoredProperties))

/-- Modelled from the spec: safe-stable-stringify, the canonical deterministic
JSON serialization used by the Fingerprinter (spec section 4.1 step 3). The
library is an external dependency, not part of this repository; it is modelled
as JSON object syntax with the keys in sorted order and JSON string escaping. -/
def stableStringifyProps (props : List (String × String)) : String :=
  "\x7b" ++
    String.intercalate (",")
      ((sortProps props).map (fun e => jsonEncodeString e.1 ++ (":") ++ jsonEncodeString e.2)) ++
    "\x7d"

/-- Shallow embedding of createHasher from src/src/deduplication.ts lines 9-38.
The BLAKE2b512 digest, computed by the external OpenSSL binding, is modelled as
an arbitrary function H on byte sequences (unkeyed, hence deterministic); the
repository code itself - filter the ignored properties, serialize them
deterministically, concatenate the payload bytes with the serialized
properties, hash the concatenation - is embedded directly. -/
def createHasher (H : Bytes → Bytes) (ignoredProperties : List String) : Msg → Bytes :=
  fun message =>
    let keptProperties := keptEntries ignoredProperties message.properties
    let deterministicPropertyBuffer := utf8Bytes (stableStringifyProps keptProperties)
    H (message.data ++ deterministicPropertyBuffer)

/-- Hex digest string of a message: hash.toString with the hex encoding,
src/src/deduplication.ts line 108. -/
def fingerprintHex (H : Bytes → Bytes) (ignoredProperties : List String) (m : Msg) : String :=
  hexOfBytes (createHasher H ignoredProperties m)

/-- Modelled from the spec: the Expiring Membership Cache of spec section 4.2,
instantiated by the oblivious-set npm package at src/src/deduplication.ts line
74; the package is an external dependency, not part of this repository.
Entries pair a fingerprint with its insertion time; ttl is the deduplication
window in milliseconds. -/
structure ObliviousSet where
  ttl : Int
  entries : List (String × Int)
deriving DecidableEq

/-- Membership at query time t: some entry for the value is within its window.
Spec section 4.2: contains returns true exactly for the values actually
inserted whose window has not elapsed; removal is lazy and unobservable through
contains, so the model never deletes entries and filters by time instead. -/
def ObliviousSet.MemAt (s : ObliviousSet) (v : String) (t : Int) : Prop :=
  ∃ e ∈ s.entries, e.1 = v ∧ t < e.2 + s.ttl

instance (s : ObliviousSet) (v : String) (t : Int) : Decidable (s.MemAt v t) := by
  unfold ObliviousSet.MemAt; infer_instance

/-- Modelled from the spec: cache insertion (spec sections 3 and 4.2),
idempotent for a currently present value and never refreshing an existing
entry. -/
def ObliviousSet.insertAt (s : ObliviousSet) (v : String) (t : Int) : ObliviousSet :=
  if s.MemAt v t then s else ⟨s.ttl, (v, t) :: s.entries⟩

/-- Entries for a value that are live, that is within their window, at time t. -/
def ObliviousSet.liveEntries (s : ObliviousSet) (v : String) (t : Int) :
    List (String × Int) :=
  s.entries.filter (fun e => decide (e.1 = v ∧ t < e.2 + s.ttl))

/-- Producer message built for forwarding, src/src/deduplication.ts lines
111-118. -/
structure ProducerMessage where
  data : Bytes
  properties : List (String × String)
  eventTimestamp : Int
deriving DecidableEq

/-- Model of the JS object spread at src/src/deduplication.ts lines 113-116:
every property of the source object, with the origin property overridden. The
spread keeps the position of an existing origin key and replaces its value; a
fresh origin key is appended last. -/
def setOrigin (props : List (String × String)) (v : String) : List (String × String) :=
  if ("origin") ∈ props.map Prod.fst
  then props.map (fun e => if e.1 = ("origin") then (e.1, v) else e)
  else props ++ [(("origin"), v)]

/-- Embedding of the producerMessage construction at src/src/deduplication.ts
lines 111-118: same payload, source properties spread with origin replaced by
the JSON array of the single digest, same event timestamp. -/
def mkProducerMessage (m : Msg) (digest : String) : ProducerMessage :=
  { data := m.data
    properties := setOrigin m.properties (jsonStringifyStrings [digest])
    eventTimestamp := m.eventTimestamp }

/-- Record of one forwarded message: the source message, its hex digest, the
processing time, the producer message whose send was issued, and the cache
state at the instant the send was issued (the digest is already in it, since
line 110 runs before line 126). -/
structure ForwardRec where
  src : Msg
  digest : String
  time : Int
  pm : ProducerMessage
  cacheAtIssue : ObliviousSet
deriving DecidableEq

/-- Record of one duplicate, acknowledged to the source without forwarding,
src/src/deduplication.ts lines 134-147. -/
structure AckOnlyRec where
  src : Msg
  digest : String
  time : Int
deriving DecidableEq

structure LoopResult where
  finalCache : ObliviousSet
  forwards : List ForwardRec
  ackedOnly : List AckOnlyRec
deriving DecidableEq

/-- Shallow embedding of the steady-state receive loop of keepDeduplicating,
src/src/deduplication.ts lines 95-148, processing a finite prefix of the
consumer stream. Each input pairs a received message with the wall-clock time
at which the loop body runs for it. Within one iteration the hash computation,
the cache query, the cache insertion and the issuing of sendAndAck are
synchronous (no suspension point between them in the source), so one iteration
is one step here; the send and acknowledge completions happen later, never
touch the cache (sendAndAck at lines 40-59 only awaits the broker, logs and
bumps a counter), and therefore do not appear in the state: the result is the
same under every interleaving of in-flight completions. -/
def keepDeduplicating (H : Bytes → Bytes) (ignoredProperties : List String)
    (cache : ObliviousSet) : List (Msg × Int) → LoopResult
  | [] => { finalCache := cache, forwards := [], ackedOnly := [] }
  | (m, t) :: rest =>
      if cache.MemAt (fingerprintHex H ignoredProperties m) t then
        let r := keepDeduplicating H ignoredProperties cache rest
        { r with ackedOnly := ⟨m, fingerprintHex H ignoredProperties m, t⟩ :: r.ackedOnly }
      else
        let c2 := cache.insertAt (fingerprintHex H ignoredProperties m) t
        let r := keepDeduplicating H ignoredProperties c2 rest
        { r with forwards :=
            ⟨m, fingerprintHex H ignoredProperties m, t,
              mkProducerMessage m (fingerprintHex H ignoredProperties m), c2⟩ :: r.forwards }

/-- JSON values, used to model the result of the JSON.parse builtin. -/
inductive Json where
  | null : Json
  | bool (b : Bool) : Json
  | num (n : Int) : Json
  | str (s : String) : Json
  | arr (elems : List Json) : Json
  | obj (fields : List (String × Json)) : Json

/-- Check from src/cacheBuilding.ts lines 30-35: the parsed value is an array
whose elements are all nonempty strings. -/
def isNonEmptyStringArray : Json → Bool
  | .arr elems => elems.all (fun j => match j with | .str s => decide (s ≠ ("")) | _ => false)
  | _ => false

/-- String elements of a JSON array. -/
def jsonStringElems : Json → List String
  | .arr elems => elems.filterMap (fun j => match j with | .str s => some s | _ => none)
  | _ => []

/-- Shallow embedding of getDigests, src/cacheBuilding.ts lines 6-63. The
JSON.parse builtin is external to the repository; it is passed in as parse,
returning none where JSON.parse would throw. An absent origin property, an
unparseable one, and one that does not parse to an array of nonempty strings
all yield the empty list: the message contributes nothing and is only logged. -/
def getDigests (parse : String → Option Json) (message : Msg) : List String :=
  match lookupProp ("origin") message.properties with
  | none => []
  | some origin =>
      match parse origin with
      | none => []
      | some digests => if isNonEmptyStringArray digests then jsonStringElems digests else []

/-- Error shape inspected by the warm-up catch block, src/cacheBuilding.ts
lines 190-199: an optional name, an optional code (none models a non-string
code, for which the strict equality with the string Timeout is false), and an
optional message (none models a non-string message). -/
structure JsError where
  name : Option String
  code : Option String
  message : Option String
deriving DecidableEq

/-- Case-insensitive substring test modelling the regex test of the timeout
pattern with the i flag at src/cacheBuilding.ts line 199. -/
def containsTimeoutCI (s : String) : Bool :=
  ((s.toList.map Char.toLower).tails).any (fun t => (("timeout").toList).isPrefixOf t)

/-- Embedding of the isTimeout classification, src/cacheBuilding.ts lines
196-199: the name equals TimeoutError, or the code equals the string Timeout,
or the message is a string containing timeout case-insensitively. -/
def isTimeoutError (e : JsError) : Bool :=
  e.name == some ("TimeoutError") || e.code == some ("Timeout") ||
    (match e.message with | some s => containsTimeoutCI s | none => false)

/-- One outcome of cacheReader.readNext during warm-up: a message (with the
wall-clock time at which the loop body handles it and the cache insertions
happen), or a thrown error (with the Date.now() value sampled at
src/cacheBuilding.ts line 214, after the backoff sleep). -/
inductive ReadOutcome where
  | msg (m : Msg) (now : Int) : ReadOutcome
  | err (e : JsError) (sampledNow : Int) : ReadOutcome
deriving DecidableEq

/-- Reason the warm-up read loop stopped. -/
inductive StopReason where
  | reachedNow : StopReason
  | noMoreMessages : StopReason
  | aborted (attempts : Nat) (elapsedMs : Int) : StopReason
  | drained : StopReason
deriving DecidableEq

/-- State of the warm-up loop: the cache, the trace of every digest passed to
cache.add (src/cacheBuilding.ts line 187), the trace of every backoff sleep in
milliseconds (lines 202-212), and the two counters. -/
structure WarmState where
  cache : ObliviousSet
  inserted : List String
  slept : List Int
  nonTimeoutRetries : Nat
  consecutiveTimeouts : Nat
deriving DecidableEq

structure WarmResult where
  state : WarmState
  stop : StopReason
deriving DecidableEq

/-- Effective timestamp of a historical message, src/cacheBuilding.ts lines
179-181: the publish timestamp when positive, else the event timestamp. -/
def effectiveTimestamp (m : Msg) : Int :=
  if 0 < m.publishTimestamp then m.publishTimestamp else m.eventTimestamp

/-- Backoff before the k-th retry of a non-timeout read error,
src/cacheBuilding.ts lines 202-205: the smaller of 500 * 2 ^ k and 5000
milliseconds. -/
def backoffMs (k : Nat) : Int :=
  min (500 * 2 ^ k) 5000

/-- Shallow embedding of the while loop of buildUpCache, src/cacheBuilding.ts
lines 175-234, over the finite sequence of readNext outcomes the reader
produces. The Except layer mirrors JS exception propagation out of the loop:
every branch of the catch block returns normally, so no error value is ever
built here (the older revision of the file that rethrew non-timeout errors
would produce one). -/
def buildUpCacheGo (parse : String → Option Json) (cutoffTs warmupStart : Int) :
    WarmState → List ReadOutcome → Except JsError WarmResult
  | st, [] => .ok ⟨st, .drained⟩
  | st, .msg m now :: rest =>
      if cutoffTs < effectiveTimestamp m then .ok ⟨st, .reachedNow⟩
      else
        buildUpCacheGo parse cutoffTs warmupStart
          { st with
            cache := (getDigests parse m).foldl (fun c d => c.insertAt d now) st.cache
            inserted := st.inserted ++ getDigests parse m
            consecutiveTimeouts := 0 } rest
  | st, .err e sampledNow :: rest =>
      if isTimeoutError e then
        if 3 ≤ st.consecutiveTimeouts + 1 then
          .ok ⟨{ st with consecutiveTimeouts := st.consecutiveTimeouts + 1 }, .noMoreMessages⟩
        else
          buildUpCacheGo parse cutoffTs warmupStart
            { st with consecutiveTimeouts := st.consecutiveTimeouts + 1 } rest
      else
        let st2 := { st with
          slept := st.slept ++ [backoffMs st.nonTimeoutRetries]
          nonTimeoutRetries := st.nonTimeoutRetries + 1 }
        if 5 ≤ st2.nonTimeoutRetries ∨ 60000 ≤ sampledNow - warmupStart then
          .ok ⟨st2, .aborted st2.nonTimeoutRetries (sampledNow - warmupStart)⟩
        else
          buildUpCacheGo parse cutoffTs warmupStart st2 rest

/-- Embedding of buildUpCache, src/cacheBuilding.ts lines 147-246: cutoffTs and
warmupStart are both the Date.now() sampled on entry; the reader, sought to
now minus the cache window, yields the given outcome sequence. Closing the
reader is effect-free here, since its own errors are caught and logged at
lines 237-244. -/
def buildUpCache (parse : String → Option Json) (cache0 : ObliviousSet) (now : Int)
    (outcomes : List ReadOutcome) : Except JsError WarmResult :=
  buildUpCacheGo parse now now ⟨cache0, [], [], 0, 0⟩ outcomes

/-! Helper lemmas about the canonical key order and association lists. -/

theorem charListLe_cons (a b : Char) (as bs : List Char) :
    charListLe (a :: as) (b :: bs) =
      if a.toNat < b.toNat then true
      else if b.toNat < a.toNat then false
      else charListLe as bs := rfl

theorem charListLe_total : ∀ x y : List Char, charListLe x y = true ∨ charListLe y x = true := by
  intro x
  induction x with
  | nil => intro y; exact Or.inl rfl
  | cons a as ih =>
    intro y
    cases y with
    | nil => exact Or.inr rfl
    | cons b bs =>
      rw [charListLe_cons, charListLe_cons]
      by_cases hab : a.toNat < b.toNat
      · exact Or.inl (by simp [hab])
      · by_cases hba : b.toNat < a.toNat
        · exact Or.inr (by simp [hba])
        · rcases ih bs with h | h
          · exact Or.inl (by simp [hab, hba, h])
          · exact Or.inr (by simp [hab, hba, h])

theorem charListLe_trans : ∀ x y z : List Char,
    charListLe x y = true → charListLe y z = true → charListLe x z = true := by
  intro x
  induction x with
  | nil => intro y z _ _; rfl
  | cons a as ih =>
    intro y z h1 h2
    cases y with
    | nil => exact absurd h1 (by simp [charListLe])
    | cons b bs =>
      cases z with
      | nil => exact absurd h2 (by simp [charListLe])
      | cons c cs =>
        rw [charListLe_cons] at h1 h2 ⊢
        split_ifs at h1 h2 ⊢ with h_1 h_2 h_3 h_4 h_5 h_6 <;>
          first
            | rfl
            | (exfalso; omega)
            | (exact ih bs cs h1 h2)

theorem charListLe_antisymm : ∀ x y : List Char,
    charListLe x y = true → charListLe y x = true → x = y := by
  intro x
  induction x with
  | nil =>
    intro y h1 h2
    cases y with
    | nil => rfl
    | cons b bs => exact absurd h2 (by simp [charListLe])
  | cons a as ih =>
    intro y h1 h2
    cases y with
    | nil => exact absurd h1 (by simp [charListLe])
    | cons b bs =>
      rw [charListLe_cons] at h1 h2
      by_cases hab : a.toNat < b.toNat
      · rw [if_neg (by omega), if_pos hab] at h2
        exact absurd h2 (by simp)
      · by_cases hba : b.toNat < a.toNat
        · rw [if_neg hab, if_pos hba] at h1
          exact absurd h1 (by simp)
        · rw [if_neg hab, if_neg hba] at h1
          rw [if_neg hba, if_neg hab] at h2
          have hnat : a.toNat = b.toNat := by omega
          have hkey : a = b := Char.eq_of_val_eq (UInt32.ext hnat)
          rw [hkey, ih bs h1 h2]

theorem string_eq_of_charListLe (s t : String)
    (h1 : charListLe s.toList t.toList = true) (h2 : charListLe t.toList s.toList = true) :
    s = t := by
  have h := charListLe_antisymm _ _ h1 h2
  cases s
  cases t
  simp only [String.toList] at h
  exact congrArg String.mk h

instance : IsTotal (String × String) keyLe :=
  ⟨fun a b => charListLe_total a.1.toList b.1.toList⟩

instance : IsTrans (String × String) keyLe :=
  ⟨fun a b c => charListLe_trans a.1.toList b.1.toList c.1.toList⟩

/-- Strict version of the key order, used to show sorted nodup-key lists are
unique up to permutation. -/
def keyLt (a b : String × String) : Prop :=
  keyLe a b ∧ a.1 ≠ b.1

instance : IsAntisymm (String × String) keyLt :=
  ⟨fun a b hab hba => absurd (string_eq_of_charListLe a.1 b.1 hab.1 hba.1) hab.2⟩

theorem pairwiseAnd {α : Type} {R S : α → α → Prop} :
    ∀ {l : List α}, l.Pairwise R → l.Pairwise S → l.Pairwise (fun a b => R a b ∧ S a b)
  | [], _, _ => List.Pairwise.nil
  | _ :: _, .cons hRa hRl, .cons hSa hSl =>
      List.Pairwise.cons (fun b hb => ⟨hRa b hb, hSa b hb⟩) (pairwiseAnd hRl hSl)

/-- Keys of a property list are pairwise distinct, as they are in a JS object. -/
def keysNodup (l : List (String × String)) : Prop :=
  (l.map Prod.fst).Nodup

instance (l : List (String × String)) : Decidable (keysNodup l) := by
  unfold keysNodup; infer_instance

theorem sortProps_perm (l : List (String × String)) : List.Perm (sortProps l) l :=
  List.perm_insertionSort keyLe l

theorem sortProps_sorted_lt {l : List (String × String)} (h : keysNodup l) :
    List.Sorted keyLt (sortProps l) := by
  have hle : List.Sorted keyLe (sortProps l) := List.sorted_insertionSort keyLe l
  have hkeys : (List.map Prod.fst (sortProps l)).Nodup :=
    (((sortProps_perm l).map Prod.fst).nodup_iff).mpr h
  have hne : (sortProps l).Pairwise (fun a b => a.1 ≠ b.1) :=
    (List.pairwise_map).mp hkeys
  exact pairwiseAnd hle hne

theorem sortProps_eq_of_perm {l₁ l₂ : List (String × String)} (h₁ : keysNodup l₁)
    (h₂ : keysNodup l₂) (hp : List.Perm l₁ l₂) : sortProps l₁ = sortProps l₂ := by
  have hperm : List.Perm (sortProps l₁) (sortProps l₂) :=
    ((sortProps_perm l₁).trans hp).trans (sortProps_perm l₂).symm
  exact List.eq_of_perm_of_sorted hperm (sortProps_sorted_lt h₁) (sortProps_sorted_lt h₂)

theorem lookupProp_eq_some_of_mem :
    ∀ {l : List (String × String)}, keysNodup l → ∀ {k v : String}, (k, v) ∈ l →
      lookupProp k l = some v := by
  intro l
  induction l with
  | nil => intro _ k v hm; cases hm
  | cons e rest ih =>
    intro h k v hm
    have h2 : e.1 ∉ rest.map Prod.fst ∧ (rest.map Prod.fst).Nodup := by
      have h3 := h
      unfold keysNodup at h3
      rw [List.map_cons, List.nodup_cons] at h3
      exact h3
    rcases List.mem_cons.mp hm with he | ht
    · rw [← he]
      simp [lookupProp]
    · have hek : ¬ e.1 = k := by
        intro hh
        rw [hh] at h2
        exact h2.1 (List.mem_map_of_mem Prod.fst ht)
      simp only [lookupProp, if_neg hek]
      exact ih h2.2 ht

theorem mem_of_lookupProp_eq_some :
    ∀ {l : List (String × String)} {k v : String}, lookupProp k l = some v → (k, v) ∈ l := by
  intro l
  induction l with
  | nil => intro k v h; cases h
  | cons e rest ih =>
    intro k v h
    obtain ⟨k0, v0⟩ := e
    simp only [lookupProp] at h
    by_cases hk : k0 = k
    · rw [if_pos hk] at h
      have hv : v0 = v := Option.some.inj h
      rw [← hk, ← hv]
      exact List.mem_cons_self _ _
    · rw [if_neg hk] at h
      exact List.mem_cons_of_mem _ (ih h)

theorem assoc_perm_of_lookup_eq {l₁ l₂ : List (String × String)} (h₁ : keysNodup l₁)
    (h₂ : keysNodup l₂) (h : ∀ k, lookupProp k l₁ = lookupProp k l₂) :
    List.Perm l₁ l₂ := by
  have d₁ : l₁.Nodup := List.Nodup.of_map Prod.fst h₁
  have d₂ : l₂.Nodup := List.Nodup.of_map Prod.fst h₂
  refine (List.perm_ext_iff_of_nodup d₁ d₂).mpr ?_
  intro a
  obtain ⟨k, v⟩ := a
  constructor
  · intro hm
    have := lookupProp_eq_some_of_mem h₁ hm
    rw [h k] at this
    exact mem_of_lookupProp_eq_some this
  · intro hm
    have := lookupProp_eq_some_of_mem h₂ hm
    rw [← h k] at this
    exact mem_of_lookupProp_eq_some this

theorem keysNodup_keptEntries (ign : List String) {p : List (String × String)}
    (h : keysNodup p) : keysNodup (keptEntries ign p) := by
  unfold keysNodup at h ⊢
  exact h.sublist (List.Sublist.map Prod.fst (List.filter_sublist p))

theorem lookupProp_keptEntries (ign : List String) (k : String) :
    ∀ props : List (String × String),
      lookupProp k (keptEntries ign props) =
        if k ∈ ign then none else lookupProp k props := by
  intro props
  induction props with
  | nil => simp [keptEntries, lookupProp]
  | cons e rest ih =>
    by_cases he : e.1 ∈ ign
    · rw [show keptEntries ign (e :: rest) = keptEntries ign rest from by
        simp [keptEntries, he]]
      rw [ih]
      by_cases hk : k ∈ ign
      · simp [hk]
      · have hek : ¬ e.1 = k := fun hh => hk (hh ▸ he)
        simp [hk, lookupProp, hek]
    · rw [show keptEntries ign (e :: rest) = e :: keptEntries ign rest from by
        simp [keptEntries, he]]
      simp only [lookupProp]
      by_cases hek : e.1 = k
      · have hk : k ∉ ign := by
          rw [← hek]
          exact he
        simp [hek, hk]
      · rw [if_neg hek, ih]
        by_cases hk : k ∈ ign
        · simp [hk]
        · simp [hk, lookupProp, hek]

theorem canonical_eq_of_lookup_eq {ign : List String} {p₁ p₂ : List (String × String)}
    (h₁ : keysNodup p₁) (h₂ : keysNodup p₂)
    (h : ∀ k, k ∉ ign → lookupProp k p₁ = lookupProp k p₂) :
    sortProps (keptEntries ign p₁) = sortProps (keptEntries ign p₂) := by
  apply sortProps_eq_of_perm (keysNodup_keptEntries ign h₁) (keysNodup_keptEntries ign h₂)
  apply assoc_perm_of_lookup_eq (keysNodup_keptEntries ign h₁) (keysNodup_keptEntries ign h₂)
  intro k
  rw [lookupProp_keptEntries, lookupProp_keptEntries]
  by_cases hk : k ∈ ign
  · simp [hk]
  · simp only [if_neg hk]
    exact h k hk

/-- Determinism of the embedded hasher: byte-identical digests for any two
messages with the same payload and the same non-ignored property mapping. -/
theorem createHasher_eq_of_content_eq (H : Bytes → Bytes) (ign : List String)
    {m₁ m₂ : Msg} (h₁ : keysNodup m₁.properties) (h₂ : keysNodup m₂.properties)
    (hdata : m₁.data = m₂.data)
    (hprops : ∀ k, k ∉ ign → lookupProp k m₁.properties = lookupProp k m₂.properties) :
    createHasher H ign m₁ = createHasher H ign m₂ := by
  show H (m₁.data ++ utf8Bytes (stableStringifyProps (keptEntries ign m₁.properties))) =
    H (m₂.data ++ utf8Bytes (stableStringifyProps (keptEntries ign m₂.properties)))
  unfold stableStringifyProps
  rw [hdata, canonical_eq_of_lookup_eq h₁ h₂ hprops]

theorem fingerprintHex_eq_of_content_eq (H : Bytes → Bytes) (ign : List String)
    {m₁ m₂ : Msg} (h₁ : keysNodup m₁.properties) (h₂ : keysNodup m₂.properties)
    (hdata : m₁.data = m₂.data)
    (hprops : ∀ k, k ∉ ign → lookupProp k m₁.properties = lookupProp k m₂.properties) :
    fingerprintHex H ign m₁ = fingerprintHex H ign m₂ :=
  congrArg hexOfBytes (createHasher_eq_of_content_eq H ign h₁ h₂ hdata hprops)

/-! Claim theorems. -/

/-- C3: for every two messages with byte-identical payloads and equal
non-ignored property mappings, the fingerprint function built by createHasher
with the same ignoredProperties list returns byte-identical digests,
regardless of the event timestamps, publish timestamps, ignored-property
values or property insertion order of the two messages; the embedded hasher
is one pure unkeyed function of the message content, so the digest is also
independent of which hasher instance computes it. -/
theorem fingerprint_deterministic (H : Bytes → Bytes) (ignoredProperties : List String)
    (m₁ m₂ : Msg) (h₁ : keysNodup m₁.properties) (h₂ : keysNodup m₂.properties)
    (hdata : m₁.data = m₂.data)
    (hprops : ∀ k, k ∉ ignoredProperties →
      lookupProp k m₁.properties = lookupProp k m₂.properties) :
    createHasher H ignoredProperties m₁ = createHasher H ignoredProperties m₂ ∧
      fingerprintHex H ignoredProperties m₁ = fingerprintHex H ignoredProperties m₂ :=
  ⟨createHasher_eq_of_content_eq H ignoredProperties h₁ h₂ hdata hprops,
   fingerprintHex_eq_of_content_eq H ignoredProperties h₁ h₂ hdata hprops⟩

/-- Witness for C3 at a concrete input: identical payloads, the same
non-ignored property in different positions, different values of the ignored
property corge and different timestamps still hash identically. -/
theorem fingerprint_deterministic_witness :
    keysNodup ([(("baz"), ("qux")), (("corge"), ("grault"))]) ∧
      createHasher id (["corge"])
          ⟨[102, 111, 111], [(("baz"), ("qux")), (("corge"), ("grault"))], 1, 0⟩ =
        createHasher id (["corge"])
          ⟨[102, 111, 111], [(("corge"), ("different")), (("baz"), ("qux"))], 2, 5⟩ := by
  refine ⟨by decide, (fingerprint_deterministic id (["corge"])
    ⟨[102, 111, 111], [(("baz"), ("qux")), (("corge"), ("grault"))], 1, 0⟩
    ⟨[102, 111, 111], [(("corge"), ("different")), (("baz"), ("qux"))], 2, 5⟩
    (by decide) (by decide) rfl ?_).1⟩
  intro k hk
  by_cases hb : ("baz" : String) = k
  · rw [← hb]
    decide
  · by_cases hc : ("corge" : String) = k
    · rw [← hc] at hk
      simp at hk
    · simp only [lookupProp, if_neg hb, if_neg hc]

/-- C4: a fingerprint inserted into the membership cache at time T with window
duration W is reported present by a membership query at any time strictly
before T + W and absent by a query at any time after T + W. The cache is
modelled from the spec, since the oblivious-set package is external to the
repository. -/
theorem cache_window_eviction (s : ObliviousSet) (v : String) (W T q₁ q₂ : Int)
    (httl : s.ttl = W)
    (hfresh : ∀ e ∈ s.entries, e.1 ≠ v)
    (hq₁ : q₁ < T + W) (hq₂ : T + W < q₂) :
    (s.insertAt v T).MemAt v q₁ ∧ ¬ (s.insertAt v T).MemAt v q₂ := by
  have hnot : ¬ s.MemAt v T := by
    rintro ⟨e, he, hev, _⟩
    exact hfresh e he hev
  rw [ObliviousSet.insertAt, if_neg hnot]
  constructor
  · refine ⟨(v, T), List.mem_cons_self _ _, rfl, ?_⟩
    show q₁ < T + s.ttl
    rw [httl]
    exact hq₁
  · rintro ⟨e, he, hev, hlt⟩
    rcases List.mem_cons.mp he with h | h
    · rw [h] at hlt
      have hlt2 : q₂ < T + s.ttl := hlt
      rw [httl] at hlt2
      omega
    · exact hfresh e h hev

/-- Witness for C4 at a concrete input: window 1000 ms, insertion at 0,
present at 999, absent at 1001. -/
theorem cache_window_eviction_witness :
    (ObliviousSet.insertAt ⟨1000, []⟩ ("d") 0).MemAt ("d") 999 ∧
      ¬ (ObliviousSet.insertAt ⟨1000, []⟩ ("d") 0).MemAt ("d") 1001 :=
  cache_window_eviction ⟨1000, []⟩ ("d") 1000 0 999 1001 rfl (by decide) (by decide) (by decide)

/-- C7: the membership cache holds at most one live entry per distinct
fingerprint, and inserting a fingerprint that is currently present changes
nothing at all - in particular it does not extend or refresh the expiry of the
existing entry, which stays fixed by the first insertion. Warm-up and the
deduplication loop both insert through this same operation. The cache is
modelled from the spec, since the oblivious-set package is external to the
repository. -/
theorem cache_no_refresh (s : ObliviousSet) (v : String) (t : Int)
    (hinv : ∀ w, (s.liveEntries w t).length ≤ 1) :
    (∀ w, ((s.insertAt v t).liveEntries w t).length ≤ 1) ∧
      (s.MemAt v t → s.insertAt v t = s) := by
  constructor
  · intro w
    by_cases hm : s.MemAt v t
    · rw [ObliviousSet.insertAt, if_pos hm]
      exact hinv w
    · rw [ObliviousSet.insertAt, if_neg hm]
      show (List.filter (fun e => decide (e.1 = w ∧ t < e.2 + s.ttl))
        ((v, t) :: s.entries)).length ≤ 1
      have hrest : List.filter (fun e => decide (e.1 = w ∧ t < e.2 + s.ttl)) s.entries =
          s.liveEntries w t := rfl
      by_cases hw : w = v
      · have hnil : s.liveEntries v t = [] := by
          rw [List.eq_nil_iff_forall_not_mem]
          intro e hemem
          have h3 := List.mem_filter.mp hemem
          have h4 := of_decide_eq_true h3.2
          exact hm ⟨e, h3.1, h4.1, h4.2⟩
        simp only [List.filter_cons]
        split
        · rw [List.length_cons, hrest, hw, hnil]
          decide
        · rw [hrest, hw, hnil]
          decide
      · have hcond : ¬ ((v, t).1 = w ∧ t < (v, t).2 + s.ttl) := by
          intro hc
          exact hw (hc.1.symm)
        simp only [List.filter_cons]
        split
        · next hh => exact absurd (of_decide_eq_true hh) hcond
        · rw [hrest]
          exact hinv w
  · intro hm
    rw [ObliviousSet.insertAt, if_pos hm]

/-- Witness for C7 at a concrete input: cache with window 1000 ms containing
the fingerprint d inserted at time 0; at time 10 the fingerprint is present
and re-inserting it returns the cache unchanged, with the original expiry. -/
theorem cache_no_refresh_witness :
    (∀ w, ((ObliviousSet.insertAt ⟨1000, [(("d"), 0)]⟩ ("d") 10).liveEntries w 10).length ≤ 1) ∧
      (ObliviousSet.MemAt ⟨1000, [(("d"), 0)]⟩ ("d") 10 →
        ObliviousSet.insertAt ⟨1000, [(("d"), 0)]⟩ ("d") 10 = ⟨1000, [(("d"), 0)]⟩) :=
  cache_no_refresh ⟨1000, [(("d"), 0)]⟩ ("d") 10
    (fun _ => List.length_filter_le _ _)

/-! Lemmas about the origin property of forwarded messages. -/

theorem lookupProp_mapReplace (props : List (String × String)) (v : String)
    (hmem : ("origin") ∈ props.map Prod.fst) :
    lookupProp ("origin")
      (props.map (fun e => if e.1 = ("origin") then (e.1, v) else e)) = some v := by
  induction props with
  | nil => simp at hmem
  | cons e rest ih =>
    simp only [List.map_cons]
    by_cases he : e.1 = ("origin")
    · rw [if_pos he]
      simp [lookupProp, he]
    · rw [if_neg he]
      simp only [lookupProp, if_neg he]
      apply ih
      rcases List.mem_cons.mp hmem with h | h
      · exact absurd h.symm he
      · exact h

theorem lookupProp_append_origin (props : List (String × String)) (v : String)
    (hmem : ("origin") ∉ props.map Prod.fst) :
    lookupProp ("origin") (props ++ [(("origin"), v)]) = some v := by
  induction props with
  | nil => simp [lookupProp]
  | cons e rest ih =>
    have he : ¬ e.1 = ("origin") := by
      intro h
      exact hmem (List.mem_cons.mpr (Or.inl h.symm))
    simp only [List.cons_append, lookupProp, if_neg he]
    exact ih (fun h => hmem (List.mem_cons_of_mem _ h))

theorem lookupProp_map_keepKey (props : List (String × String)) (v k : String)
    (hk : k ≠ ("origin")) :
    lookupProp k (props.map (fun e => if e.1 = ("origin") then (e.1, v) else e)) =
      lookupProp k props := by
  induction props with
  | nil => rfl
  | cons e rest ih =>
    simp only [List.map_cons]
    by_cases he : e.1 = ("origin")
    · rw [if_pos he]
      simp only [lookupProp]
      by_cases hek : e.1 = k
      · exact absurd (hek.symm.trans he) hk
      · rw [if_neg hek, if_neg hek]
        exact ih
    · rw [if_neg he]
      simp only [lookupProp]
      by_cases hek : e.1 = k
      · rw [if_pos hek, if_pos hek]
      · rw [if_neg hek, if_neg hek]
        exact ih

theorem lookupProp_append_other (props : List (String × String)) (v k : String)
    (hk : k ≠ ("origin")) :
    lookupProp k (props ++ [(("origin"), v)]) = lookupProp k props := by
  induction props with
  | nil =>
    simp only [List.nil_append, lookupProp]
    rw [if_neg (fun h => hk (h.symm))]
  | cons e rest ih =>
    simp only [List.cons_append, lookupProp]
    by_cases hek : e.1 = k
    · rw [if_pos hek, if_pos hek]
    · rw [if_neg hek, if_neg hek]
      exact ih

theorem lookupProp_setOrigin_self (props : List (String × String)) (v : String) :
    lookupProp ("origin") (setOrigin props v) = some v := by
  unfold setOrigin
  by_cases hmem : ("origin") ∈ props.map Prod.fst
  · rw [if_pos hmem]
    exact lookupProp_mapReplace props v hmem
  · rw [if_neg hmem]
    exact lookupProp_append_origin props v hmem

theorem lookupProp_setOrigin_other (props : List (String × String)) (v k : String)
    (hk : k ≠ ("origin")) : lookupProp k (setOrigin props v) = lookupProp k props := by
  unfold setOrigin
  by_cases hmem : ("origin") ∈ props.map Prod.fst
  · rw [if_pos hmem]
    exact lookupProp_map_keepKey props v k hk
  · rw [if_neg hmem]
    exact lookupProp_append_other props v k hk

/-- C9: when a source message already carries an origin property, the
forwarded message replaces its value by the JSON array of the newly computed
digest (so the original value is no longer the origin property of the
output), and, unless origin is listed in ignoredProperties, the original
origin value still participates in the fingerprint computation: it is looked
up unchanged in the filtered property list and its entry is in the canonical
sorted list whose serialization is hashed. -/
theorem origin_overwrite (H : Bytes → Bytes) (ign : List String) (m : Msg) (v : String)
    (hv : lookupProp ("origin") m.properties = some v) :
    lookupProp ("origin") (mkProducerMessage m (fingerprintHex H ign m)).properties =
        some (jsonStringifyStrings [fingerprintHex H ign m]) ∧
      (("origin") ∉ ign →
        lookupProp ("origin") (keptEntries ign m.properties) = some v ∧
          ((("origin"), v) ∈ sortProps (keptEntries ign m.properties))) := by
  refine ⟨lookupProp_setOrigin_self m.properties _, ?_⟩
  intro hign
  have hh : lookupProp ("origin") (keptEntries ign m.properties) = some v := by
    rw [lookupProp_keptEntries, if_neg hign]
    exact hv
  refine ⟨hh, ?_⟩
  exact ((sortProps_perm (keptEntries ign m.properties)).mem_iff).mpr
    (mem_of_lookupProp_eq_some hh)

/-- Witness for C9 at a concrete input: a source message whose origin property
is the string old; the forwarded message carries the new JSON array instead,
and the old value is still in the hashed property list. -/
theorem origin_overwrite_witness :
    lookupProp ("origin")
        (mkProducerMessage ⟨[1], [(("origin"), ("old")), (("a"), ("b"))], 0, 0⟩
          (fingerprintHex id ([])
            ⟨[1], [(("origin"), ("old")), (("a"), ("b"))], 0, 0⟩)).properties =
      some (jsonStringifyStrings [fingerprintHex id ([])
        ⟨[1], [(("origin"), ("old")), (("a"), ("b"))], 0, 0⟩]) ∧
      (("origin") ∉ ([] : List String) →
        lookupProp ("origin")
            (keptEntries ([]) [(("origin"), ("old")), (("a"), ("b"))]) = some ("old") ∧
          ((("origin"), ("old")) ∈
            sortProps (keptEntries ([]) [(("origin"), ("old")), (("a"), ("b"))]))) :=
  origin_overwrite id ([]) ⟨[1], [(("origin"), ("old")), (("a"), ("b"))], 0, 0⟩ ("old")
    (by decide)

/-- C10: warm-up classifies a read error as a timeout exactly when its name
equals TimeoutError, or its code equals the string Timeout, or its message is
a string matching the case-insensitive timeout pattern; an error classified
this way is counted toward the consecutive-timeout stop bound and is never
slept on or retried with backoff; and a genuine transport error whose message
merely contains the substring is treated as end-of-backlog: three in a row
stop warm-up with no backoff at all. -/
theorem timeout_classification :
    (∀ e : JsError, isTimeoutError e = true ↔
        (e.name = some ("TimeoutError") ∨ e.code = some ("Timeout") ∨
          ∃ s, e.message = some s ∧ containsTimeoutCI s = true)) ∧
      (∀ (parse : String → Option Json) (cutoff wstart : Int) (st : WarmState)
          (e : JsError) (t : Int) (rest : List ReadOutcome), isTimeoutError e = true →
        buildUpCacheGo parse cutoff wstart st (.err e t :: rest) =
          (if 3 ≤ st.consecutiveTimeouts + 1 then
            Except.ok ⟨{ st with consecutiveTimeouts := st.consecutiveTimeouts + 1 },
              .noMoreMessages⟩
          else
            buildUpCacheGo parse cutoff wstart
              { st with consecutiveTimeouts := st.consecutiveTimeouts + 1 } rest)) ∧
      (∀ (parse : String → Option Json) (cache0 : ObliviousSet) (now t₁ t₂ t₃ : Int),
        buildUpCache parse cache0 now
          [.err ⟨some ("BrokerError"), none, some ("socket timeout while reading")⟩ t₁,
           .err ⟨some ("BrokerError"), none, some ("socket timeout while reading")⟩ t₂,
           .err ⟨some ("BrokerError"), none, some ("socket timeout while reading")⟩ t₃] =
          Except.ok ⟨⟨cache0, [], [], 0, 3⟩, .noMoreMessages⟩) := by
  refine ⟨?_, ?_, ?_⟩
  · intro e
    obtain ⟨n, c, msg⟩ := e
    cases msg with
    | none => simp [isTimeoutError]
    | some s =>
      simp [isTimeoutError]
      tauto
  · intro parse cutoff wstart st e t rest h
    simp only [buildUpCacheGo, h, if_true]
  · intro parse cache0 now t₁ t₂ t₃
    have he : isTimeoutError
        ⟨some ("BrokerError"), none, some ("socket timeout while reading")⟩ = true := by
      decide
    simp [buildUpCache, buildUpCacheGo, he]

/-- Witness for C10 at a concrete input: an error named TimeoutError is
classified as a timeout, and the warm-up step on it increments the
consecutive-timeout counter without sleeping. -/
theorem timeout_classification_witness :
    buildUpCacheGo (fun _ => none) 0 0 ⟨⟨1000, []⟩, [], [], 0, 0⟩
        [.err ⟨some ("TimeoutError"), none, none⟩ 0] =
      (if 3 ≤ 0 + 1 then
        Except.ok ⟨{ (⟨⟨1000, []⟩, [], [], 0, 0⟩ : WarmState) with consecutiveTimeouts := 0 + 1 },
          .noMoreMessages⟩
      else
        buildUpCacheGo (fun _ => none) 0 0
          { (⟨⟨1000, []⟩, [], [], 0, 0⟩ : WarmState) with consecutiveTimeouts := 0 + 1 } []) :=
  timeout_classification.2.1 (fun _ => none) 0 0 ⟨⟨1000, []⟩, [], [], 0, 0⟩
    ⟨some ("TimeoutError"), none, none⟩ 0 [] (by decide)

/-- Invariant lemma for the warm-up loop: from any state with fewer than five
non-timeout retries whose sleep trace matches the backoff schedule, the loop
always returns normally, keeps the retry count at most five, keeps the sleep
trace equal to the exponential backoff schedule, and only aborts when a bound
is exceeded. -/
theorem buildUpCacheGo_ok (parse : String → Option Json) (cutoff wstart : Int) :
    ∀ (evs : List ReadOutcome) (st : WarmState),
      st.nonTimeoutRetries < 5 →
      st.slept = (List.range st.nonTimeoutRetries).map backoffMs →
      ∃ r : WarmResult, buildUpCacheGo parse cutoff wstart st evs = .ok r ∧
        r.state.nonTimeoutRetries ≤ 5 ∧
        r.state.slept = (List.range r.state.nonTimeoutRetries).map backoffMs ∧
        (∀ n el, r.stop = .aborted n el → 5 ≤ n ∨ 60000 ≤ el) := by
  intro evs
  induction evs with
  | nil =>
    intro st h1 h2
    exact ⟨⟨st, .drained⟩, rfl, le_of_lt h1, h2, fun n el h => by cases h⟩
  | cons ev rest ih =>
    intro st h1 h2
    cases ev with
    | msg m now =>
      by_cases hc : cutoff < effectiveTimestamp m
      · refine ⟨⟨st, .reachedNow⟩, ?_, le_of_lt h1, h2, fun n el h => by cases h⟩
        simp only [buildUpCacheGo]
        rw [if_pos hc]
      · obtain ⟨r, hr, h3, h4, h5⟩ := ih
          { st with
            cache := (getDigests parse m).foldl (fun c d => c.insertAt d now) st.cache
            inserted := st.inserted ++ getDigests parse m
            consecutiveTimeouts := 0 } h1 h2
        refine ⟨r, ?_, h3, h4, h5⟩
        simp only [buildUpCacheGo]
        rw [if_neg hc]
        exact hr
    | err e sampledNow =>
      by_cases ht : isTimeoutError e = true
      · by_cases hct : 3 ≤ st.consecutiveTimeouts + 1
        · refine ⟨⟨{ st with consecutiveTimeouts := st.consecutiveTimeouts + 1 },
            .noMoreMessages⟩, ?_, le_of_lt h1, h2, fun n el h => by cases h⟩
          simp only [buildUpCacheGo, ht, if_true]
          rw [if_pos hct]
        · obtain ⟨r, hr, h3, h4, h5⟩ := ih
            { st with consecutiveTimeouts := st.consecutiveTimeouts + 1 } h1 h2
          refine ⟨r, ?_, h3, h4, h5⟩
          simp only [buildUpCacheGo, ht, if_true]
          rw [if_neg hct]
          exact hr
      · have ht2 : isTimeoutError e = false := by
          cases hb : isTimeoutError e
          · rfl
          · exact absurd hb ht
        have hslept : st.slept ++ [backoffMs st.nonTimeoutRetries] =
            (List.range (st.nonTimeoutRetries + 1)).map backoffMs := by
          rw [h2, List.range_succ, List.map_append]
          rfl
        by_cases hstop : 5 ≤ st.nonTimeoutRetries + 1 ∨ 60000 ≤ sampledNow - wstart
        · refine ⟨⟨{ st with
              slept := st.slept ++ [backoffMs st.nonTimeoutRetries]
              nonTimeoutRetries := st.nonTimeoutRetries + 1 },
            .aborted (st.nonTimeoutRetries + 1) (sampledNow - wstart)⟩, ?_, ?_, ?_, ?_⟩
          · simp only [buildUpCacheGo, ht2, Bool.false_eq_true, if_false]
            rw [if_pos hstop]
          · exact Nat.succ_le_of_lt h1
          · exact hslept
          · intro n el h
            injection h with hn hel
            rw [← hn, ← hel]
            exact hstop
        · have h1b : st.nonTimeoutRetries + 1 < 5 := by
            rcases Nat.lt_or_ge (st.nonTimeoutRetries + 1) 5 with h | h
            · exact h
            · exact absurd (Or.inl h) hstop
          obtain ⟨r, hr, h3, h4, h5⟩ := ih
            { st with
              slept := st.slept ++ [backoffMs st.nonTimeoutRetries]
              nonTimeoutRetries := st.nonTimeoutRetries + 1 } h1b hslept
          refine ⟨r, ?_, h3, h4, h5⟩
          simp only [buildUpCacheGo, ht2, Bool.false_eq_true, if_false]
          rw [if_neg hstop]
          exact hr

/-- C6: during cache warm-up every non-timeout read error is retried after
exponential backoff (the sleep trace is exactly the schedule min(500 * 2 ^ k,
5000) for k below the final retry count), the retry count stays bounded by
five, warm-up only aborts when the retry bound or the 60 second elapsed-time
budget is exceeded - proceeding with whatever partial cache was accumulated -
and a non-timeout read error never propagates out of buildUpCache: the result
is always returned normally. -/
theorem warmup_nontimeout_bounded (parse : String → Option Json) (cache0 : ObliviousSet)
    (now : Int) (outcomes : List ReadOutcome) :
    ∃ r : WarmResult, buildUpCache parse cache0 now outcomes = .ok r ∧
      r.state.nonTimeoutRetries ≤ 5 ∧
      r.state.slept = (List.range r.state.nonTimeoutRetries).map backoffMs ∧
      (∀ n el, r.stop = .aborted n el → 5 ≤ n ∨ 60000 ≤ el) :=
  buildUpCacheGo_ok parse now now outcomes ⟨cache0, [], [], 0, 0⟩
    (show (0 : Nat) < 5 by decide) rfl

/-- Witness for C6 at a concrete input: a warm-up run over two non-timeout
errors returns normally with the backoff schedule respected. -/
theorem warmup_nontimeout_bounded_witness :
    ∃ r : WarmResult, buildUpCache (fun _ => none) ⟨1000, []⟩ 0
        [.err ⟨some ("BrokenPipe"), none, some ("oops")⟩ 10,
         .err ⟨some ("BrokenPipe"), none, some ("oops")⟩ 20] = .ok r ∧
      r.state.nonTimeoutRetries ≤ 5 ∧
      r.state.slept = (List.range r.state.nonTimeoutRetries).map backoffMs ∧
      (∀ n el, r.stop = .aborted n el → 5 ≤ n ∨ 60000 ≤ el) :=
  warmup_nontimeout_bounded (fun _ => none) ⟨1000, []⟩ 0
    [.err ⟨some ("BrokenPipe"), none, some ("oops")⟩ 10,
     .err ⟨some ("BrokenPipe"), none, some ("oops")⟩ 20]

/-- C8: a historical message whose origin property is absent, not parseable as
JSON, or not parsed to a JSON array of nonempty strings contributes no
fingerprint; one whose origin parses to an array of nonempty strings
contributes exactly those strings; and in either case the warm-up loop simply
inserts the digest list into the cache and continues with the next message
without failing (for a message inside the window). -/
theorem warmup_origin_tolerance (parse : String → Option Json) (m : Msg) :
    (lookupProp ("origin") m.properties = none → getDigests parse m = []) ∧
      (∀ o, lookupProp ("origin") m.properties = some o → parse o = none →
        getDigests parse m = []) ∧
      (∀ o j, lookupProp ("origin") m.properties = some o → parse o = some j →
        isNonEmptyStringArray j = false → getDigests parse m = []) ∧
      (∀ o j, lookupProp ("origin") m.properties = some o → parse o = some j →
        isNonEmptyStringArray j = true → getDigests parse m = jsonStringElems j) ∧
      (∀ (cutoff wstart now : Int) (st : WarmState) (rest : List ReadOutcome),
        effectiveTimestamp m ≤ cutoff →
        buildUpCacheGo parse cutoff wstart st (.msg m now :: rest) =
          buildUpCacheGo parse cutoff wstart
            { st with
              cache := (getDigests parse m).foldl (fun c d => c.insertAt d now) st.cache
              inserted := st.inserted ++ getDigests parse m
              consecutiveTimeouts := 0 } rest) := by
  refine ⟨?_, ?_, ?_, ?_, ?_⟩
  · intro h
    unfold getDigests
    rw [h]
  · intro o h1 h2
    unfold getDigests
    rw [h1]
    simp only [h2]
  · intro o j h1 h2 h3
    unfold getDigests
    rw [h1]
    simp only [h2, h3, Bool.false_eq_true, if_false]
  · intro o j h1 h2 h3
    unfold getDigests
    rw [h1]
    simp only [h2, h3, if_true]
  · intro cutoff wstart now st rest h
    simp only [buildUpCacheGo]
    rw [if_neg (not_lt.mpr h)]

/-- Witness for C8 at a concrete input: a message whose origin parses to a
two-element array of nonempty strings contributes exactly those two strings,
and a message without origin contributes nothing. -/
theorem warmup_origin_tolerance_witness :
    getDigests
        (fun s => if s = ("x") then some (Json.arr [Json.str ("a"), Json.str ("b")]) else none)
        ⟨[], [(("origin"), ("x"))], 0, 0⟩ =
      jsonStringElems (Json.arr [Json.str ("a"), Json.str ("b")]) ∧
      getDigests
        (fun s => if s = ("x") then some (Json.arr [Json.str ("a"), Json.str ("b")]) else none)
        ⟨[], [(("other"), ("y"))], 0, 0⟩ = [] := by
  constructor
  · exact (warmup_origin_tolerance
      (fun s => if s = ("x") then some (Json.arr [Json.str ("a"), Json.str ("b")]) else none)
      ⟨[], [(("origin"), ("x"))], 0, 0⟩).2.2.2.1 ("x")
      (Json.arr [Json.str ("a"), Json.str ("b")]) (by decide) (by simp) (by decide)
  · exact (warmup_origin_tolerance
      (fun s => if s = ("x") then some (Json.arr [Json.str ("a"), Json.str ("b")]) else none)
      ⟨[], [(("other"), ("y"))], 0, 0⟩).1 (by decide)

/-! Unfolding lemmas for the deduplication loop. -/

theorem keepDeduplicating_cons_mem (H : Bytes → Bytes) (ign : List String)
    (cache : ObliviousSet) (m : Msg) (t : Int) (rest : List (Msg × Int))
    (h : cache.MemAt (fingerprintHex H ign m) t) :
    keepDeduplicating H ign cache ((m, t) :: rest) =
      { finalCache := (keepDeduplicating H ign cache rest).finalCache
        forwards := (keepDeduplicating H ign cache rest).forwards
        ackedOnly := ⟨m, fingerprintHex H ign m, t⟩ ::
          (keepDeduplicating H ign cache rest).ackedOnly } := by
  simp only [keepDeduplicating]
  rw [if_pos h]

theorem keepDeduplicating_cons_not_mem (H : Bytes → Bytes) (ign : List String)
    (cache : ObliviousSet) (m : Msg) (t : Int) (rest : List (Msg × Int))
    (h : ¬ cache.MemAt (fingerprintHex H ign m) t) :
    keepDeduplicating H ign cache ((m, t) :: rest) =
      { finalCache := (keepDeduplicating H ign
            (cache.insertAt (fingerprintHex H ign m) t) rest).finalCache
        forwards := ⟨m, fingerprintHex H ign m, t,
            mkProducerMessage m (fingerprintHex H ign m),
            cache.insertAt (fingerprintHex H ign m) t⟩ ::
          (keepDeduplicating H ign (cache.insertAt (fingerprintHex H ign m) t) rest).forwards
        ackedOnly := (keepDeduplicating H ign
          (cache.insertAt (fingerprintHex H ign m) t) rest).ackedOnly } := by
  simp only [keepDeduplicating]
  rw [if_neg h]

/-- C5: every message forwarded by the deduplication loop keeps the payload
bytes and the event timestamp of its source message, carries the property
origin equal to the JSON encoding of the array holding exactly its own hex
digest, and keeps every other source property unchanged - including the
properties listed in ignoredProperties, whose filtering happens only inside
the fingerprint computation. -/
theorem forwarded_message_frame (H : Bytes → Bytes) (ign : List String)
    (cache : ObliviousSet) (inputs : List (Msg × Int)) :
    ∀ r ∈ (keepDeduplicating H ign cache inputs).forwards,
      r.digest = fingerprintHex H ign r.src ∧
      r.pm.data = r.src.data ∧
      r.pm.eventTimestamp = r.src.eventTimestamp ∧
      lookupProp ("origin") r.pm.properties = some (jsonStringifyStrings [r.digest]) ∧
      (∀ k, k ≠ ("origin") → lookupProp k r.pm.properties = lookupProp k r.src.properties) := by
  induction inputs generalizing cache with
  | nil =>
    intro r hr
    simp [keepDeduplicating] at hr
  | cons p rest ih =>
    obtain ⟨m, t⟩ := p
    intro r hr
    by_cases hmem : cache.MemAt (fingerprintHex H ign m) t
    · rw [keepDeduplicating_cons_mem H ign cache m t rest hmem] at hr
      exact ih _ r hr
    · rw [keepDeduplicating_cons_not_mem H ign cache m t rest hmem] at hr
      rcases List.mem_cons.mp hr with h | h
      · rw [h]
        refine ⟨rfl, rfl, rfl, lookupProp_setOrigin_self _ _, ?_⟩
        intro k hk
        exact lookupProp_setOrigin_other _ _ k hk
      · exact ih _ r h

/-- Witness for C5 at a concrete input: the loop forwards one message whose
output properties keep the source property and gain the origin marker. -/
theorem forwarded_message_frame_witness :
    lookupProp ("origin") [(("a"), ("b")), (("origin"), ("[\"\"]"))] =
      some (jsonStringifyStrings [("")]) := by
  have h := forwarded_message_frame (fun _ => []) ([]) ⟨1000, []⟩
    [(⟨[7], [(("a"), ("b"))], 5, 0⟩, 0)]
    ⟨⟨[7], [(("a"), ("b"))], 5, 0⟩, (""), 0,
      ⟨[7], [(("a"), ("b")), (("origin"), ("[\"\"]"))], 5⟩, ⟨1000, [((""), 0)]⟩⟩
    (by decide)
  exact h.2.2.2.1

/-! Lemmas for the at-most-one-forward-per-window property. -/

theorem insertAt_ttl (s : ObliviousSet) (v : String) (t : Int) :
    (s.insertAt v t).ttl = s.ttl := by
  unfold ObliviousSet.insertAt
  split
  · rfl
  · rfl

theorem mem_entries_insertAt (s : ObliviousSet) (v : String) (t : Int) {e : String × Int}
    (h : e ∈ s.entries) : e ∈ (s.insertAt v t).entries := by
  unfold ObliviousSet.insertAt
  split
  · exact h
  · exact List.mem_cons_of_mem _ h

/-- Every entry of the starting cache bounds from below by a full window the
issue time of any later forward of the same digest. -/
theorem keepDeduplicating_forward_after_entries (H : Bytes → Bytes) (ign : List String) :
    ∀ (inputs : List (Msg × Int)) (cache : ObliviousSet),
      ∀ r ∈ (keepDeduplicating H ign cache inputs).forwards,
        ∀ e ∈ cache.entries, e.1 = r.digest → e.2 + cache.ttl ≤ r.time := by
  intro inputs
  induction inputs with
  | nil =>
    intro cache r hr
    simp [keepDeduplicating] at hr
  | cons p rest ih =>
    obtain ⟨m, t⟩ := p
    intro cache r hr e he hkey
    by_cases hmem : cache.MemAt (fingerprintHex H ign m) t
    · rw [keepDeduplicating_cons_mem H ign cache m t rest hmem] at hr
      exact ih cache r hr e he hkey
    · rw [keepDeduplicating_cons_not_mem H ign cache m t rest hmem] at hr
      rcases List.mem_cons.mp hr with h | h
      · rw [h] at hkey ⊢
        by_contra hcon
        push_neg at hcon
        exact hmem ⟨e, he, hkey, hcon⟩
      · have h2 := ih (cache.insertAt (fingerprintHex H ign m) t) r h e
          (mem_entries_insertAt cache _ t he) hkey
        rw [insertAt_ttl] at h2
        exact h2

/-- In every forwarding step the digest is in the cache snapshot taken at the
instant the send is issued. -/
theorem keepDeduplicating_insert_before_send (H : Bytes → Bytes) (ign : List String) :
    ∀ (inputs : List (Msg × Int)) (cache : ObliviousSet), 0 < cache.ttl →
      ∀ r ∈ (keepDeduplicating H ign cache inputs).forwards,
        r.cacheAtIssue.MemAt r.digest r.time := by
  intro inputs
  induction inputs with
  | nil =>
    intro cache _ r hr
    simp [keepDeduplicating] at hr
  | cons p rest ih =>
    obtain ⟨m, t⟩ := p
    intro cache hpos r hr
    by_cases hmem : cache.MemAt (fingerprintHex H ign m) t
    · rw [keepDeduplicating_cons_mem H ign cache m t rest hmem] at hr
      exact ih cache hpos r hr
    · rw [keepDeduplicating_cons_not_mem H ign cache m t rest hmem] at hr
      rcases List.mem_cons.mp hr with h | h
      · rw [h]
        show (cache.insertAt (fingerprintHex H ign m) t).MemAt (fingerprintHex H ign m) t
        rw [ObliviousSet.insertAt, if_neg hmem]
        refine ⟨(fingerprintHex H ign m, t), List.mem_cons_self _ _, rfl, ?_⟩
        show t < t + cache.ttl
        omega
      · exact ih (cache.insertAt (fingerprintHex H ign m) t)
          (by rw [insertAt_ttl]; exact hpos) r h

/-- Two forwards of the same digest are at least a full window apart. -/
theorem keepDeduplicating_window_spacing (H : Bytes → Bytes) (ign : List String) :
    ∀ (inputs : List (Msg × Int)) (cache : ObliviousSet) (i j : Nat) (ri rj : ForwardRec),
      i < j →
      (keepDeduplicating H ign cache inputs).forwards[i]? = some ri →
      (keepDeduplicating H ign cache inputs).forwards[j]? = some rj →
      ri.digest = rj.digest → ri.time + cache.ttl ≤ rj.time := by
  intro inputs
  induction inputs with
  | nil =>
    intro cache i j ri rj hij hi hj hd
    simp [keepDeduplicating] at hi
  | cons p rest ih =>
    obtain ⟨m, t⟩ := p
    intro cache i j ri rj hij hi hj hd
    by_cases hmem : cache.MemAt (fingerprintHex H ign m) t
    · rw [keepDeduplicating_cons_mem H ign cache m t rest hmem] at hi hj
      exact ih cache i j ri rj hij hi hj hd
    · rw [keepDeduplicating_cons_not_mem H ign cache m t rest hmem] at hi hj
      cases i with
      | zero =>
        rw [List.getElem?_cons_zero] at hi
        have hri : ri = ⟨m, fingerprintHex H ign m, t,
            mkProducerMessage m (fingerprintHex H ign m),
            cache.insertAt (fingerprintHex H ign m) t⟩ := (Option.some.inj hi).symm
        cases j with
        | zero => omega
        | succ j2 =>
          rw [List.getElem?_cons_succ] at hj
          have hmemj := List.getElem?_mem hj
          have hkey : ((fingerprintHex H ign m, t) : String × Int).1 = rj.digest := by
            rw [← hd, hri]
          have hc2 : ((fingerprintHex H ign m, t) : String × Int) ∈
              (cache.insertAt (fingerprintHex H ign m) t).entries := by
            rw [ObliviousSet.insertAt, if_neg hmem]
            exact List.mem_cons_self _ _
          have h2 := keepDeduplicating_forward_after_entries H ign rest
            (cache.insertAt (fingerprintHex H ign m) t) rj hmemj
            (fingerprintHex H ign m, t) hc2 hkey
          rw [insertAt_ttl] at h2
          rw [hri]
          exact h2
      | succ i2 =>
        cases j with
        | zero => omega
        | succ j2 =>
          rw [List.getElem?_cons_succ] at hi hj
          have h2 := ih (cache.insertAt (fingerprintHex H ign m) t) i2 j2 ri rj
            (by omega) hi hj hd
          rw [insertAt_ttl] at h2
          exact h2

/-- C2: in every loop step that forwards a message, the hex digest is in the
membership cache at the instant the send is issued - the insertion at
src/src/deduplication.ts line 110 runs synchronously before the sendAndAck
call at line 126, with no suspension point in between - and consequently any
two forwarded messages with the same fingerprint are issued at least one full
deduplication window apart: at most one message per fingerprint is forwarded
within one window, no matter how many earlier sends are still in flight,
since completions never touch the cache. -/
theorem cache_insert_before_send (H : Bytes → Bytes) (ign : List String) (Wsec : Int)
    (cache : ObliviousSet) (inputs : List (Msg × Int))
    (httl : cache.ttl = 1000 * Wsec) (hpos : 0 < Wsec) :
    (∀ r ∈ (keepDeduplicating H ign cache inputs).forwards,
        r.cacheAtIssue.MemAt r.digest r.time) ∧
      (∀ (i j : Nat) (ri rj : ForwardRec), i < j →
        (keepDeduplicating H ign cache inputs).forwards[i]? = some ri →
        (keepDeduplicating H ign cache inputs).forwards[j]? = some rj →
        ri.digest = rj.digest → ri.time + 1000 * Wsec ≤ rj.time) := by
  constructor
  · exact keepDeduplicating_insert_before_send H ign inputs cache
      (by rw [httl]; omega)
  · intro i j ri rj hij hi hj hd
    have h2 := keepDeduplicating_window_spacing H ign inputs cache i j ri rj hij hi hj hd
    rw [httl] at h2
    exact h2

/-- Witness for C2 at a concrete input: two messages with the same digest
processed 2000 ms apart with a 1 s window are both forwarded, a full window
apart; the digest is present in the cache snapshot at the first issue. -/
theorem cache_insert_before_send_witness :
    (ObliviousSet.MemAt ⟨1000, [((""), 0)]⟩ ("") 0) ∧ ((0 : Int) + 1000 * 1 ≤ 2000) := by
  have h := cache_insert_before_send (fun _ => []) ([]) 1 ⟨1000, []⟩
    [(⟨[1], [], 0, 0⟩, 0), (⟨[2], [], 0, 0⟩, 2000)] rfl (by decide)
  refine ⟨?_, ?_⟩
  · exact h.1
      ⟨⟨[1], [], 0, 0⟩, (""), 0, ⟨[1], [(("origin"), ("[\"\"]"))], 0⟩, ⟨1000, [((""), 0)]⟩⟩
      (by decide)
  · exact h.2 0 1
      ⟨⟨[1], [], 0, 0⟩, (""), 0, ⟨[1], [(("origin"), ("[\"\"]"))], 0⟩, ⟨1000, [((""), 0)]⟩⟩
      ⟨⟨[2], [], 0, 0⟩, (""), 2000, ⟨[2], [(("origin"), ("[\"\"]"))], 0⟩,
        ⟨1000, [((""), 2000), ((""), 0)]⟩⟩
      (by decide) (by decide) (by decide) (by decide)

/-- C1: feeding the deduplication loop a five-message sequence processed
within one deduplication window, in which the messages at positions 2 and 5
are exact duplicates of message 1 (same payload, same non-ignored property
mapping) and no other messages duplicate each other (rendered as pairwise
distinct fingerprints of messages 1, 3, 4), exactly the messages at positions
1, 3 and 4 are forwarded, in that relative order, and the messages at
positions 2 and 5 are acknowledged to the source without being forwarded. -/
theorem loop_dedup_forwarding (H : Bytes → Bytes) (ign : List String) (Wsec : Int)
    (m₁ m₂ m₃ m₄ m₅ : Msg) (t₁ t₂ t₃ t₄ t₅ : Int)
    (h₁ : keysNodup m₁.properties) (h₂ : keysNodup m₂.properties)
    (h₅ : keysNodup m₅.properties)
    (hd₂ : m₂.data = m₁.data)
    (hp₂ : ∀ k, k ∉ ign → lookupProp k m₂.properties = lookupProp k m₁.properties)
    (hd₅ : m₅.data = m₁.data)
    (hp₅ : ∀ k, k ∉ ign → lookupProp k m₅.properties = lookupProp k m₁.properties)
    (hne₁₃ : fingerprintHex H ign m₁ ≠ fingerprintHex H ign m₃)
    (hne₁₄ : fingerprintHex H ign m₁ ≠ fingerprintHex H ign m₄)
    (hne₃₄ : fingerprintHex H ign m₃ ≠ fingerprintHex H ign m₄)
    (ht₂ : t₂ < t₁ + 1000 * Wsec) (ht₅ : t₅ < t₁ + 1000 * Wsec) :
    ((keepDeduplicating H ign ⟨1000 * Wsec, []⟩
        [(m₁, t₁), (m₂, t₂), (m₃, t₃), (m₄, t₄), (m₅, t₅)]).forwards.map
          ForwardRec.src = [m₁, m₃, m₄]) ∧
      ((keepDeduplicating H ign ⟨1000 * Wsec, []⟩
        [(m₁, t₁), (m₂, t₂), (m₃, t₃), (m₄, t₄), (m₅, t₅)]).ackedOnly.map
          AckOnlyRec.src = [m₂, m₅]) := by
  have hfp₂ : fingerprintHex H ign m₂ = fingerprintHex H ign m₁ :=
    fingerprintHex_eq_of_content_eq H ign h₂ h₁ hd₂ hp₂
  have hfp₅ : fingerprintHex H ign m₅ = fingerprintHex H ign m₁ :=
    fingerprintHex_eq_of_content_eq H ign h₅ h₁ hd₅ hp₅
  have hm1 : ¬ ObliviousSet.MemAt ⟨1000 * Wsec, []⟩ (fingerprintHex H ign m₁) t₁ := by
    simp [ObliviousSet.MemAt]
  have hI1 : ObliviousSet.insertAt ⟨1000 * Wsec, []⟩ (fingerprintHex H ign m₁) t₁ =
      ⟨1000 * Wsec, [(fingerprintHex H ign m₁, t₁)]⟩ := by
    rw [ObliviousSet.insertAt, if_neg hm1]
  have hM2 : ObliviousSet.MemAt ⟨1000 * Wsec, [(fingerprintHex H ign m₁, t₁)]⟩
      (fingerprintHex H ign m₂) t₂ :=
    ⟨(fingerprintHex H ign m₁, t₁), List.mem_cons_self _ _, hfp₂.symm, ht₂⟩
  have hM3 : ¬ ObliviousSet.MemAt ⟨1000 * Wsec, [(fingerprintHex H ign m₁, t₁)]⟩
      (fingerprintHex H ign m₃) t₃ := by
    rintro ⟨e, he, hkey, _⟩
    rcases List.mem_cons.mp he with h | h
    · rw [h] at hkey
      exact hne₁₃ hkey
    · exact absurd h (List.not_mem_nil e)
  have hI3 : ObliviousSet.insertAt ⟨1000 * Wsec, [(fingerprintHex H ign m₁, t₁)]⟩
      (fingerprintHex H ign m₃) t₃ =
      ⟨1000 * Wsec, [(fingerprintHex H ign m₃, t₃), (fingerprintHex H ign m₁, t₁)]⟩ := by
    rw [ObliviousSet.insertAt, if_neg hM3]
  have hM4 : ¬ ObliviousSet.MemAt
      ⟨1000 * Wsec, [(fingerprintHex H ign m₃, t₃), (fingerprintHex H ign m₁, t₁)]⟩
      (fingerprintHex H ign m₄) t₄ := by
    rintro ⟨e, he, hkey, _⟩
    rcases List.mem_cons.mp he with h | h
    · rw [h] at hkey
      exact hne₃₄ hkey
    · rcases List.mem_cons.mp h with h2 | h2
      · rw [h2] at hkey
        exact hne₁₄ hkey
      · exact absurd h2 (List.not_mem_nil e)
  have hI4 : ObliviousSet.insertAt
      ⟨1000 * Wsec, [(fingerprintHex H ign m₃, t₃), (fingerprintHex H ign m₁, t₁)]⟩
      (fingerprintHex H ign m₄) t₄ =
      ⟨1000 * Wsec, [(fingerprintHex H ign m₄, t₄), (fingerprintHex H ign m₃, t₃),
        (fingerprintHex H ign m₁, t₁)]⟩ := by
    rw [ObliviousSet.insertAt, if_neg hM4]
  have hM5 : ObliviousSet.MemAt
      ⟨1000 * Wsec, [(fingerprintHex H ign m₄, t₄), (fingerprintHex H ign m₃, t₃),
        (fingerprintHex H ign m₁, t₁)]⟩
      (fingerprintHex H ign m₅) t₅ :=
    ⟨(fingerprintHex H ign m₁, t₁),
      List.mem_cons_of_mem _ (List.mem_cons_of_mem _ (List.mem_cons_self _ _)),
      hfp₅.symm, ht₅⟩
  rw [keepDeduplicating_cons_not_mem H ign _ m₁ t₁ _ hm1, hI1,
    keepDeduplicating_cons_mem H ign _ m₂ t₂ _ hM2,
    keepDeduplicating_cons_not_mem H ign _ m₃ t₃ _ hM3, hI3,
    keepDeduplicating_cons_not_mem H ign _ m₄ t₄ _ hM4, hI4,
    keepDeduplicating_cons_mem H ign _ m₅ t₅ _ hM5]
  simp only [keepDeduplicating]
  exact ⟨rfl, rfl⟩

/-- Witness for C1 at a concrete input: five messages, the second and fifth
byte-identical in payload and properties to the first up to timestamps, the
others distinct; the loop forwards 1, 3, 4 and only acknowledges 2 and 5. -/
theorem loop_dedup_forwarding_witness :
    ((keepDeduplicating id ([]) ⟨1000 * 1, []⟩
        [(⟨[0], [], 0, 0⟩, 0), (⟨[0], [], 9, 9⟩, 1), (⟨[1], [], 0, 0⟩, 2),
          (⟨[2], [], 0, 0⟩, 3), (⟨[0], [], 3, 3⟩, 4)]).forwards.map ForwardRec.src =
        [⟨[0], [], 0, 0⟩, ⟨[1], [], 0, 0⟩, ⟨[2], [], 0, 0⟩]) ∧
      ((keepDeduplicating id ([]) ⟨1000 * 1, []⟩
        [(⟨[0], [], 0, 0⟩, 0), (⟨[0], [], 9, 9⟩, 1), (⟨[1], [], 0, 0⟩, 2),
          (⟨[2], [], 0, 0⟩, 3), (⟨[0], [], 3, 3⟩, 4)]).ackedOnly.map AckOnlyRec.src =
        [⟨[0], [], 9, 9⟩, ⟨[0], [], 3, 3⟩]) :=
  loop_dedup_forwarding id ([]) 1
    ⟨[0], [], 0, 0⟩ ⟨[0], [], 9, 9⟩ ⟨[1], [], 0, 0⟩ ⟨[2], [], 0, 0⟩ ⟨[0], [], 3, 3⟩
    0 1 2 3 4
    (by decide) (by decide) (by decide) rfl (fun _ _ => rfl) rfl (fun _ _ => rfl)
    (by decide) (by decide) (by decide) (by decide) (by decide)

end PulsarDedup
